import Mathlib

/-!
Verification of the clause-extraction and analysis pipeline of the
contract-analysis repository.  Python text values are modelled as lists of
Unicode code points (`List ℕ`); the character-class and case predicates are
modelled with their ASCII semantics, which is faithful for all texts the
claims are about.  Floating-point scores are modelled as rationals, and
embedding vectors as lists of reals (cosine similarity uses a real square
root, exactly as `math.sqrt` does).
-/

namespace Contracts

/-- A Python `str` as its list of code points. -/
def strToCodes (s : String) : List ℕ := s.data.map Char.toNat

/-- ASCII model of Python `str.isspace` (the whitespace characters that can
occur in the texts under analysis). -/
def isSpaceC (c : ℕ) : Bool :=
  decide (c = 32 ∨ c = 9 ∨ c = 10 ∨ c = 13 ∨ c = 11 ∨ c = 12)

/-- ASCII decimal digit, the model of the regex class `\d`. -/
def isDigitC (c : ℕ) : Bool := decide (48 ≤ c ∧ c ≤ 57)

/-- ASCII upper-case letter. -/
def isUpperC (c : ℕ) : Bool := decide (65 ≤ c ∧ c ≤ 90)

/-- ASCII lower-case letter. -/
def isLowerC (c : ℕ) : Bool := decide (97 ≤ c ∧ c ≤ 122)

/-- ASCII model of Python `str.isalnum`. -/
def isAlnumC (c : ℕ) : Bool := isDigitC c || isUpperC c || isLowerC c

/-- ASCII model of Python `str.lower` on a single character. -/
def lowerC (c : ℕ) : ℕ := if isUpperC c then c + 32 else c

/-- Python `text.lower()`. -/
def lowerText (t : List ℕ) : List ℕ := t.map lowerC

/-- Maximal runs of characters satisfying `keep`; the remaining characters
act as separators and are dropped.  `acc` holds the (reversed-free) run
currently being read. -/
def runsAux (keep : ℕ → Bool) : List ℕ → List ℕ → List (List ℕ)
  | [], acc => if acc.isEmpty then [] else [acc]
  | c :: rest, acc =>
      if keep c then runsAux keep rest (acc ++ [c])
      else if acc.isEmpty then runsAux keep rest []
      else acc :: runsAux keep rest []

def runs (keep : ℕ → Bool) (l : List ℕ) : List (List ℕ) := runsAux keep l []

/-- Python `str.split()` with no arguments: split on whitespace runs,
dropping empty fragments. -/
def words (l : List ℕ) : List (List ℕ) := runs (fun c => !isSpaceC c) l

/-- `sep.join(fragments)` for a one-character separator. -/
def joinSep (sep : ℕ) : List (List ℕ) → List ℕ
  | [] => []
  | [w] => w
  | w :: ws => w ++ sep :: joinSep sep ws

/-- `" ".join(text.split())`, the first step of `_normalize_text`. -/
def collapseWS (l : List ℕ) : List ℕ := joinSep 32 (words l)

/-- `ClauseExtractor._normalize_text`: collapse whitespace, lower-case, then
replace every character that is neither alphanumeric nor whitespace by a
space (`" "`, code 32). -/
def normalize (t : List ℕ) : List ℕ :=
  (lowerText (collapseWS t)).map (fun c => if isAlnumC c || isSpaceC c then c else 32)

/-- Characters that can appear in the output of `normalize`: lower-case
letters, digits, and the plain space. -/
def goodCharB (c : ℕ) : Bool := isDigitC c || isLowerC c || c == 32

-- ===== DEFINITIONS (continued) =====

/-- `needle.isPrefixOf haystack` on code points. -/
def isPrefixB : List ℕ → List ℕ → Bool
  | [], _ => true
  | _ :: _, [] => false
  | a :: as, b :: bs => a == b && isPrefixB as bs

/-- Python's substring test `needle in haystack`. -/
def containsSub (n : List ℕ) : List ℕ → Bool
  | [] => isPrefixB n []
  | c :: t => isPrefixB n (c :: t) || containsSub n t

/-- The closed set of clause categories (`models.database.ClauseType`). -/
inductive ClauseType where
  | OBLIGATION | EXCLUSION | TERMINATION | LIABILITY | PAYMENT
  | CONFIDENTIALITY | INTELLECTUAL_PROPERTY | WARRANTY | INDEMNIFICATION
  | FORCE_MAJEURE | DISPUTE_RESOLUTION | AMENDMENT | GENERAL
  deriving DecidableEq, Repr

/-- `models.database.RiskLevel`. -/
inductive RiskLevel where
  | LOW | MEDIUM | HIGH | CRITICAL
  deriving DecidableEq, Repr

/-- A stored clause, with its embedding already deserialized: `none` models
an absent/empty `embedding_vector` column, `some v` a stored JSON vector. -/
structure Clause where
  id : ℕ
  contractId : ℕ
  sectionNumber : List ℕ
  text : List ℕ
  clauseType : ClauseType
  pageNumber : ℕ
  embedding : Option (List ℝ)

structure Contract where
  id : ℕ
  name : List ℕ
  clauses : List Clause

/-- A detected conflict record (the human-readable `description` string is
presentational and not modelled). -/
structure Conflict where
  clauseId : ℕ
  conflictingClauseId : ℕ
  conflictType : List ℕ
  severity : RiskLevel
  confidence : ℚ
  deriving DecidableEq

/-- Configured thresholds (`config.Config` defaults). -/
def SIMILARITY_THRESHOLD : ℚ := 0.85

def CONFLICT_THRESHOLD : ℚ := 0.3

/-- `ConflictDetector._cosine_similarity` (also
`QuestionAnsweringSystem._cosine_similarity`): returns `0` for an empty or
length-mismatched pair or a non-positive squared norm, else the real cosine. -/
noncomputable def cosineSimilarity (v1 v2 : List ℝ) : ℝ :=
  if v1.length = 0 ∨ v2.length = 0 ∨ v1.length ≠ v2.length then 0
  else
    let dot := ((v1.zip v2).map (fun p => p.1 * p.2)).sum
    let n1 := (v1.map (fun a => a * a)).sum
    let n2 := (v2.map (fun a => a * a)).sum
    if n1 ≤ 0 ∨ n2 ≤ 0 then 0 else dot / Real.sqrt (n1 * n2)

/-- Obligation markers of `ConflictDetector._check_contradiction`. -/
def obligationTerms : List (List ℕ) :=
  [strToCodes "shall", strToCodes "must", strToCodes "will", strToCodes "required"]

/-- Prohibition markers of `ConflictDetector._check_contradiction`. -/
def prohibitionTerms : List (List ℕ) :=
  [strToCodes "shall not", strToCodes "must not", strToCodes "prohibited",
   strToCodes "forbidden"]

/-- Negation indicators of `ConflictDetector._check_contradiction`. -/
def negationTerms : List (List ℕ) :=
  [strToCodes "not", strToCodes "no", strToCodes "never", strToCodes "without",
   strToCodes "except", strToCodes "excluding"]

/-- `any(term in text for term in terms)`. -/
def hasAnyTerm (terms : List (List ℕ)) (t : List ℕ) : Bool :=
  terms.any (fun w => containsSub w t)

/-- `sum(1 for neg in negations if neg in text)`. -/
def negationCount (t : List ℕ) : ℕ :=
  (negationTerms.filter (fun w => containsSub w t)).length

/-- `ConflictDetector._check_contradiction`: 0.7 for an obligation facing a
prohibition (in either direction), plus 0.3 when the negation-indicator
counts differ by at least 2, clamped at 1.0. -/
def checkContradiction (t1 t2 : List ℕ) : ℚ :=
  let l1 := lowerText t1
  let l2 := lowerText t2
  let o1 := hasAnyTerm obligationTerms l1
  let p1 := hasAnyTerm prohibitionTerms l1
  let o2 := hasAnyTerm obligationTerms l2
  let p2 := hasAnyTerm prohibitionTerms l2
  let opposing : ℚ := if (o1 && p2) || (p1 && o2) then 0.7 else 0
  let negDiff : ℚ :=
    if 2 ≤ ((negationCount l1 : ℤ) - (negationCount l2 : ℤ)).natAbs then 0.3 else 0
  min (opposing + negDiff) 1

/-- Clause types the conflict detector treats as critical. -/
def criticalConflictTypes : List ClauseType :=
  [.LIABILITY, .TERMINATION, .INDEMNIFICATION, .PAYMENT]

/-- `ConflictDetector._assess_conflict_severity`. -/
def assessConflictSeverity (ct : ClauseType) (score : ℚ) : RiskLevel :=
  if ct ∈ criticalConflictTypes then
    if score > 0.7 then .CRITICAL else .HIGH
  else
    if score > 0.7 then .HIGH
    else if score > 0.5 then .MEDIUM
    else .LOW

/-- `ConflictDetector._check_clause_conflict`: both embeddings must be
present and nonempty, cosine similarity must exceed the similarity
threshold, and the contradiction score must exceed the conflict threshold. -/
noncomputable def checkClauseConflict (c1 c2 : Clause) (conflictType : List ℕ) :
    Option Conflict :=
  match c1.embedding, c2.embedding with
  | some e1, some e2 =>
      if e1.length = 0 ∨ e2.length = 0 then none
      else if cosineSimilarity e1 e2 > (SIMILARITY_THRESHOLD : ℝ) then
        let score := checkContradiction c1.text c2.text
        if score > CONFLICT_THRESHOLD then
          some { clauseId := c1.id, conflictingClauseId := c2.id,
                 conflictType := conflictType,
                 severity := assessConflictSeverity c1.clauseType score,
                 confidence := score }
        else none
      else none
  | _, _ => none

/-- `contract.name.split()[0]` (Python raises `IndexError` on an all-blank
name; that degenerate case is modelled as the empty token). -/
def firstToken (name : List ℕ) : List ℕ := (words name).headD []

/-- `ConflictDetector._detect_version_conflicts`: the query filter
`Contract.id != contract.id, Contract.name.contains(first_token)` followed by
the nested loop over type-matching clause pairs. -/
noncomputable def detectVersionConflicts (contract : Contract)
    (allContracts : List Contract) : List Conflict :=
  let tok := firstToken contract.name
  let others := allContracts.filter
    (fun o => o.id != contract.id && containsSub tok o.name)
  others.flatMap (fun o =>
    contract.clauses.flatMap (fun c1 =>
      o.clauses.filterMap (fun c2 =>
        if c1.clauseType = c2.clauseType then
          checkClauseConflict c1 c2 (strToCodes "VERSION_CONFLICT")
        else none)))

/-- Modelled from the spec's words for claim C4: contract `b` "shares"
contract `a`'s first whitespace token, i.e. that token occurs among the
whitespace-separated tokens of `b`'s name. -/
def specSharesFirstToken (a b : List ℕ) : Bool :=
  decide (firstToken a ∈ words b)

/-- `AmbiguityDetector.AMBIGUOUS_TERMS`. -/
def AMBIGUOUS_TERMS : List (List ℕ) :=
  ["reasonable", "appropriate", "substantial", "material", "promptly",
   "timely", "as soon as possible", "best efforts", "good faith",
   "commercially reasonable", "may", "might", "approximately", "about",
   "around", "generally", "typically", "adequate", "sufficient",
   "necessary", "proper"].map strToCodes

/-- `AmbiguityDetector.VAGUE_QUANTIFIERS`. -/
def VAGUE_QUANTIFIERS : List (List ℕ) :=
  ["some", "several", "few", "many", "most", "numerous", "various",
   "certain", "multiple"].map strToCodes

/-- `AmbiguityDetector.COMPLEX_CONDITIONALS`. -/
def COMPLEX_CONDITIONALS : List (List ℕ) :=
  ["unless", "except", "provided that", "subject to", "notwithstanding",
   "whereas", "whereby"].map strToCodes

/-- The negation words of `AmbiguityDetector.analyze_clause`. -/
def ambNegationTerms : List (List ℕ) :=
  ["not", "no", "never", "neither", "nor"].map strToCodes

/-- `re.split(r"[.;]", text)`: split at every `.` (46) or `;` (59), keeping
empty fragments; the result always has one more fragment than separators. -/
def splitSeps : List ℕ → List (List ℕ)
  | [] => [[]]
  | c :: rest =>
      if c == 46 || c == 59 then [] :: splitSeps rest
      else
        match splitSeps rest with
        | [] => [[c]]
        | f :: fs => (c :: f) :: fs

/-- `k ≤ |l|` and the first `k` characters are digits. -/
def digitsPrefix (l : List ℕ) (k : ℕ) : Bool :=
  decide (k ≤ l.length) && (l.take k).all isDigitC

/-- The regex alternative `\d{1,2}/\d{1,2}/\d{2,4}` anchored at the start of
`l` (47 = `/`); a regex match exists iff some choice of repetition counts
matches. -/
def date1At (l : List ℕ) : Bool :=
  [1, 2].any (fun k1 => [1, 2].any (fun k2 => [2, 3, 4].any (fun k3 =>
    digitsPrefix l k1 && ((l.drop k1).head? == some 47) &&
    digitsPrefix (l.drop (k1 + 1)) k2 &&
    ((l.drop (k1 + 1 + k2)).head? == some 47) &&
    digitsPrefix (l.drop (k1 + 1 + k2 + 1)) k3)))

/-- The regex alternative `\d{4}-\d{2}-\d{2}` anchored at the start of `l`
(45 = `-`). -/
def date2At (l : List ℕ) : Bool :=
  digitsPrefix l 4 && ((l.drop 4).head? == some 45) &&
  digitsPrefix (l.drop 5) 2 && ((l.drop 7).head? == some 45) &&
  digitsPrefix (l.drop 8) 2

/-- `re.search` of the date pattern: a match anchored at some suffix. -/
def hasDate : List ℕ → Bool
  | [] => date1At [] || date2At []
  | c :: rest => date1At (c :: rest) || date2At (c :: rest) || hasDate rest

/-- The three-way type split of `AmbiguityDetector.analyze_clause`'s
missing-specifics bonus. -/
def missingSpecificsTypes : List ClauseType := [.PAYMENT, .TERMINATION, .LIABILITY]

/-- `len([term for term in terms if term in t])`. -/
def termHits (terms : List (List ℕ)) (t : List ℕ) : ℕ :=
  (terms.filter (fun w => containsSub w t)).length

/-- The missing-specifics bonus of `analyze_clause`: +0.25 when the
(lowered) text has no digits and no date match, exceeds 100 characters, and
the clause type is PAYMENT/TERMINATION/LIABILITY. -/
def missingSpecificsBonus (t : List ℕ) (ctype : ClauseType) : ℚ :=
  if ¬(t.any isDigitC = true) ∧ ¬(hasDate t = true) ∧ 100 < t.length ∧
      ctype ∈ missingSpecificsTypes
  then 0.25 else 0

/-- `sum(1 for neg in negations if f" {neg} " in f" {text} ")`. -/
def ambNegationCount (t : List ℕ) : ℕ :=
  ((ambNegationTerms.map (fun w => 32 :: (w ++ [32]))).filter
    (fun w => containsSub w (32 :: (t ++ [32])))).length

/-- `sum(len(s.split()) for s in sentences) / max(len(sentences), 1)` where
`sentences = re.split(r"[.;]", text)` (over the raw clause text). -/
def avgSentenceLength (text : List ℕ) : ℚ :=
  ((splitSeps text).map (fun s => ((words s).length : ℚ))).sum /
    (max (splitSeps text).length 1 : ℕ)

/-- `AmbiguityDetector.analyze_clause`, restricted to the ambiguity score it
returns (the parallel issue strings are presentational).  `text` is the raw
clause text and `ctype` its clause type; term scanning, digit/date detection
and the negation count run on the lowered text, sentence statistics on the
raw text. -/
def ambiguityScore (text : List ℕ) (ctype : ClauseType) : ℚ :=
  let t := lowerText text
  min ((termHits AMBIGUOUS_TERMS t : ℚ) * 0.15 +
    (termHits VAGUE_QUANTIFIERS t : ℚ) * 0.1 +
    (termHits COMPLEX_CONDITIONALS t : ℚ) * 0.12 +
    missingSpecificsBonus t ctype +
    (if 2 ≤ ambNegationCount t then (0.2 : ℚ) else 0) +
    (if 40 < avgSentenceLength text then (0.15 : ℚ) else 0)) 1

/-- Characters allowed in an appended trigger term: lower-case letters and
spaces (every trigger term of the three lists is of this shape). -/
def cleanCharB (c : ℕ) : Bool := isLowerC c || c == 32

/-- `modLast f l` maps `f` over the last element of `l` (used to describe
how `re.split(r"[.;]", a ++ b)` extends the last fragment when `b` contains
no separator). -/
def modLast (f : List ℕ → List ℕ) : List (List ℕ) → List (List ℕ)
  | [] => []
  | [x] => [f x]
  | x :: xs => x :: modLast f xs

/-- `(` or an ASCII upper-case letter: the look-ahead class `[A-Z(]` of the
sentence-splitting regex. -/
def upperOrParen (c : ℕ) : Bool := isUpperC c || c == 40

/-- `re.split(r"(?<=[.;])\s+(?=[A-Z(])", text)`: split at a whitespace run
that directly follows `.`/`;` and is directly followed by an upper-case
letter or `(`.  `acc` is the fragment built so far, `wsBuf` a pending
whitespace run, and `afterSep` records whether the character before `wsBuf`
was `.` or `;`. -/
def sentSplitGo : List ℕ → List ℕ → List ℕ → Bool → List (List ℕ)
  | [], acc, wsBuf, _ => [acc ++ wsBuf]
  | c :: rest, acc, wsBuf, afterSep =>
      if isSpaceC c then sentSplitGo rest acc (wsBuf ++ [c]) afterSep
      else if afterSep && !wsBuf.isEmpty && upperOrParen c then
        acc :: sentSplitGo rest [c] [] (c == 46 || c == 59)
      else sentSplitGo rest (acc ++ wsBuf ++ [c]) [] (c == 46 || c == 59)

def sentSplit (l : List ℕ) : List (List ℕ) := sentSplitGo l [] [] false

/-- Python `str.strip()`. -/
def pyStrip (l : List ℕ) : List ℕ :=
  ((l.dropWhile isSpaceC).reverse.dropWhile isSpaceC).reverse

/-- `re.match(r"^[\(\[]*[a-z0-9ivx]+[\)\]]\s*", sentence)`: optional opening
brackets, a nonempty run from `[a-z0-9ivx]` (`ivx` is contained in `a-z`),
then one closing bracket.  The character classes are disjoint, so the greedy
scan is exact. -/
def startsNewClause (s : List ℕ) : Bool :=
  let afterOpen := s.dropWhile (fun c => c == 40 || c == 91)
  let run := afterOpen.takeWhile (fun c => isLowerC c || isDigitC c)
  let rest := afterOpen.dropWhile (fun c => isLowerC c || isDigitC c)
  !run.isEmpty && (match rest.head? with
    | some d => d == 41 || d == 93
    | none => false)

/-- `ClauseIdentifier.OBLIGATION_KEYWORDS`. -/
def OBLIGATION_KEYWORDS : List (List ℕ) :=
  ["shall", "must", "will", "agrees to", "obligated", "required to"].map strToCodes

/-- `ClauseIdentifier.EXCLUSION_KEYWORDS`. -/
def EXCLUSION_KEYWORDS : List (List ℕ) :=
  ["shall not", "except", "excluding", "does not include",
   "not applicable"].map strToCodes

/-- `ClauseIdentifier.LIABILITY_KEYWORDS`. -/
def LIABILITY_KEYWORDS : List (List ℕ) :=
  ["liable", "liability", "damages", "indemnify", "responsible for"].map strToCodes

/-- `ClauseIdentifier.TERMINATION_KEYWORDS`. -/
def TERMINATION_KEYWORDS : List (List ℕ) :=
  ["terminate", "termination", "cancel", "cancellation",
   "end this agreement"].map strToCodes

/-- `ClauseIdentifier._estimate_clause_type`: fixed-priority keyword scan
(exclusion, then obligation, then liability, then termination). -/
def estimateClauseType (text : List ℕ) : ClauseType :=
  let t := lowerText text
  if hasAnyTerm EXCLUSION_KEYWORDS t then .EXCLUSION
  else if hasAnyTerm OBLIGATION_KEYWORDS t then .OBLIGATION
  else if hasAnyTerm LIABILITY_KEYWORDS t then .LIABILITY
  else if hasAnyTerm TERMINATION_KEYWORDS t then .TERMINATION
  else .GENERAL

/-- The clause-accumulation loop of `ClauseIdentifier.split_into_clauses`;
each finished clause is the space-join of its buffered sentences paired with
its estimated type (the 1-based clause number is the list position and the
section fields are passed through unchanged, so they are not repeated
here). -/
def splitClausesGo : List (List ℕ) → List (List ℕ) → List (List ℕ × ClauseType)
  | [], current =>
      if current.isEmpty then []
      else [(joinSep 32 current, estimateClauseType (joinSep 32 current))]
  | s :: rest, current =>
      let s' := pyStrip s
      if s'.isEmpty then splitClausesGo rest current
      else if startsNewClause s' then
        if current.isEmpty then splitClausesGo rest [s']
        else (joinSep 32 current, estimateClauseType (joinSep 32 current)) ::
          splitClausesGo rest [s']
      else splitClausesGo rest (current ++ [s'])

/-- `ClauseIdentifier.split_into_clauses` (texts and estimated types). -/
def splitIntoClauses (text : List ℕ) : List (List ℕ × ClauseType) :=
  splitClausesGo (sentSplit text) []

/-- `QuestionAnsweringSystem._tokenize`: `re.findall(r"[a-z0-9]+", text.lower())`. -/
def tokenize (t : List ℕ) : List (List ℕ) :=
  runs (fun c => isLowerC c || isDigitC c) (lowerText t)

/-- `QuestionAnsweringSystem._lexical_similarity`: cosine over binary token
presence; `set(...)` is modelled by order-preserving deduplication, whose
cardinality agrees with the Python set. -/
noncomputable def lexicalSimilarity (a b : List ℕ) : ℝ :=
  let ta := (tokenize a).dedup
  let tb := (tokenize b).dedup
  if ta.isEmpty || tb.isEmpty then 0
  else ((ta.filter (fun w => decide (w ∈ tb))).length : ℝ) /
    Real.sqrt ((ta.length : ℝ) * (tb.length : ℝ))

/-- The per-clause similarity of `_retrieve_evidence`: embedding cosine when
both a question embedding and a stored clause vector exist, else the lexical
fallback. -/
noncomputable def similarityOf (questionText : List ℕ)
    (questionEmb : Option (List ℝ)) (c : Clause) : ℝ :=
  match questionEmb, c.embedding with
  | some qe, some ce => cosineSimilarity qe ce
  | _, _ => lexicalSimilarity questionText c.text

/-- `models.schemas.EvidenceClause`. -/
structure EvidenceClause where
  clauseId : ℕ
  sectionNumber : List ℕ
  text : List ℕ
  relevanceScore : ℝ
  clauseType : ClauseType
  documentName : List ℕ
  pageNumber : ℕ

/-- Python `list.sort(key=..., reverse=True)` is stable: equal-score entries
keep their original order, so on an index-tagged list the sort realizes this
total order (higher score first, then lower original index first). -/
def rankRel : (ℕ × Clause × ℝ) → (ℕ × Clause × ℝ) → Prop :=
  fun a b => b.2.2 < a.2.2 ∨ (a.2.2 = b.2.2 ∧ a.1 ≤ b.1)

noncomputable instance : DecidableRel rankRel := fun _ _ => Classical.dec _

instance : IsTotal (ℕ × Clause × ℝ) rankRel where
  total a b := by
    rcases lt_trichotomy a.2.2 b.2.2 with h | h | h
    · exact Or.inr (Or.inl h)
    · rcases Nat.le_total a.1 b.1 with h' | h'
      · exact Or.inl (Or.inr ⟨h, h'⟩)
      · exact Or.inr (Or.inr ⟨h.symm, h'⟩)
    · exact Or.inl (Or.inl h)

instance : IsTrans (ℕ × Clause × ℝ) rankRel where
  trans a b c hab hbc := by
    rcases hab with h1 | ⟨h1, h1'⟩ <;> rcases hbc with h2 | ⟨h2, h2'⟩
    · exact Or.inl (h2.trans h1)
    · exact Or.inl (h2 ▸ h1)
    · exact Or.inl (h1 ▸ h2)
    · exact Or.inr ⟨h1.trans h2, h1'.trans h2'⟩

/-- The `(clause, similarity)` pairs computed by `_retrieve_evidence` in
clause order. -/
noncomputable def scoredClauses (questionText : List ℕ)
    (questionEmb : Option (List ℝ)) (clauses : List Clause) :
    List (Clause × ℝ) :=
  clauses.map (fun c => (c, similarityOf questionText questionEmb c))

/-- The scored pairs after `clause_scores.sort(key=lambda x: x[1],
reverse=True)`, tagged with their original positions. -/
noncomputable def rankedClauses (questionText : List ℕ)
    (questionEmb : Option (List ℝ)) (clauses : List Clause) :
    List (ℕ × Clause × ℝ) :=
  (scoredClauses questionText questionEmb clauses).enum.insertionSort rankRel

/-- The document name attached to an evidence clause:
`contract.name if contract else "Unknown"`. -/
def documentNameOf (contracts : List Contract) (c : Clause) : List ℕ :=
  match contracts.find? (fun k => k.id == c.contractId) with
  | some k => k.name
  | none => strToCodes "Unknown"

/-- `QuestionAnsweringSystem._retrieve_evidence`. -/
noncomputable def retrieveEvidence (questionText : List ℕ)
    (questionEmb : Option (List ℝ)) (contracts : List Contract)
    (clauses : List Clause) (topK : ℕ) : List EvidenceClause :=
  if clauses.isEmpty then []
  else
    ((rankedClauses questionText questionEmb clauses).take topK).map (fun p =>
      { clauseId := p.2.1.id, sectionNumber := p.2.1.sectionNumber,
        text := p.2.1.text, relevanceScore := p.2.2,
        clauseType := p.2.1.clauseType,
        documentName := documentNameOf contracts p.2.1,
        pageNumber := p.2.1.pageNumber })

/-- `models.schemas.AnswerResponse`.  The ambiguity messages are modelled by
the data they are formatted from: the section number of the evidence clause
together with the ambiguous terms found in it. -/
structure AnswerResponse where
  answer : List ℕ
  confidence : ℝ
  evidenceClauses : List EvidenceClause
  ambiguities : List (List ℕ × List (List ℕ))
  conflicts : List Conflict
  requiresReview : Bool

/-- `", ".join(...)`: join with a multi-character separator. -/
def joinSepList (sep : List ℕ) : List (List ℕ) → List ℕ
  | [] => []
  | [w] => w
  | w :: ws => w ++ sep ++ joinSepList sep ws

/-- The fixed sentinel answer text (39 is the apostrophe of "couldn't"). -/
def noRelevantClausesAnswer : List ℕ :=
  strToCodes "I couldn" ++ [39] ++
    strToCodes "t find relevant clauses to answer this question."

/-- `QuestionAnsweringSystem._generate_answer` (34 is the quote character;
the `set` of supporting document names is modelled by order-preserving
deduplication). -/
def generateAnswer (evidence : List EvidenceClause) : List ℕ × ℝ :=
  match evidence with
  | [] => (strToCodes "No relevant information found.", 0)
  | top :: restEv =>
      let base := strToCodes "Based on " ++ top.documentName ++
        (if top.sectionNumber.isEmpty then []
         else strToCodes ", Section " ++ top.sectionNumber) ++
        strToCodes ":" ++ [10, 10] ++ [34] ++ top.text ++ [34]
      let answer :=
        if restEv.isEmpty then base
        else base ++ [10, 10] ++
          strToCodes "This is further supported by " ++
          strToCodes (toString restEv.length) ++
          strToCodes " related clause(s) in " ++
          joinSepList (strToCodes ", ") ((restEv.map (·.documentName)).dedup) ++
          strToCodes "."
      (answer, top.relevanceScore)

/-- The ambiguous-term list of `QuestionAnsweringSystem._detect_ambiguities`. -/
def qaAmbiguousTerms : List (List ℕ) :=
  ["reasonable", "appropriate", "substantial", "material", "promptly",
   "timely", "best efforts", "good faith"].map strToCodes

/-- `QuestionAnsweringSystem._detect_ambiguities`: one message per evidence
clause containing ambiguous terms, modelled as the data the message is
formatted from. -/
def qaDetectAmbiguities (evidence : List EvidenceClause) :
    List (List ℕ × List (List ℕ)) :=
  evidence.filterMap (fun e =>
    let found := qaAmbiguousTerms.filter (fun w => containsSub w (lowerText e.text))
    if found.isEmpty then none else some (e.sectionNumber, found))

/-- `QuestionAnsweringSystem._check_evidence_conflicts`: stored conflicts
whose both clause ids belong to the evidence set. -/
def checkEvidenceConflicts (stored : List Conflict)
    (evidence : List EvidenceClause) : List Conflict :=
  let ids := evidence.map (·.clauseId)
  stored.filter (fun k => decide (k.clauseId ∈ ids) &&
    decide (k.conflictingClauseId ∈ ids))

/-- The high-risk clause types of `QuestionAnsweringSystem._needs_review`. -/
def highRiskTypes : List ClauseType :=
  [.LIABILITY, .TERMINATION, .INDEMNIFICATION, .PAYMENT]

/-- `QuestionAnsweringSystem._needs_review`. -/
noncomputable def needsReview (evidence : List EvidenceClause)
    (conflicts : List Conflict) (ambiguities : List (List ℕ × List (List ℕ))) :
    Bool :=
  if 2 ≤ (evidence.filter (fun e => decide (e.clauseType ∈ highRiskTypes))).length
  then true
  else if 0 < conflicts.length then true
  else if 2 ≤ ambiguities.length then true
  else
    match evidence with
    | [] => false
    | top :: _ => decide (top.relevanceScore < 0.6)

/-- `QuestionAnsweringSystem.answer_question` (the database save step has no
effect on the returned response and is not modelled; `storedConflicts` stands
for the session's conflict table). -/
noncomputable def answerQuestion (questionText : List ℕ)
    (questionEmb : Option (List ℝ)) (contracts : List Contract)
    (clauses : List Clause) (storedConflicts : List Conflict) (topK : ℕ) :
    AnswerResponse :=
  let evidence := retrieveEvidence questionText questionEmb contracts clauses topK
  if evidence.isEmpty then
    { answer := noRelevantClausesAnswer, confidence := 0, evidenceClauses := [],
      ambiguities := [], conflicts := [], requiresReview := false }
  else
    let ac := generateAnswer evidence
    let ambiguities := qaDetectAmbiguities evidence
    let conflicts := checkEvidenceConflicts storedConflicts evidence
    { answer := ac.1, confidence := ac.2, evidenceClauses := evidence,
      ambiguities := ambiguities, conflicts := conflicts,
      requiresReview := needsReview evidence conflicts ambiguities }

/-- First text of the specified contradiction pair. -/
def deliverText : List ℕ :=
  strToCodes "The party shall deliver the goods within 10 days."

/-- Second text of the specified contradiction pair. -/
def deliverNotText : List ℕ :=
  strToCodes "The party shall not deliver the goods within 10 days."

/-- Concrete clause used to instantiate theorems with hypotheses. -/
def exClauseA : Clause :=
  { id := 1, contractId := 1, sectionNumber := strToCodes "1",
    text := deliverText, clauseType := .LIABILITY, pageNumber := 1,
    embedding := some [1] }

/-- Concrete clause used to instantiate theorems with hypotheses. -/
def exClauseB : Clause :=
  { id := 2, contractId := 2, sectionNumber := strToCodes "2",
    text := deliverNotText, clauseType := .LIABILITY, pageNumber := 1,
    embedding := some [1] }

/-- Concrete contract used to instantiate theorems with hypotheses. -/
def exContractA : Contract :=
  { id := 1, name := strToCodes "Alpha Contract", clauses := [exClauseA] }

/-- A contract whose name contains the token "Alpha" as a substring without
sharing it as a whitespace token. -/
def exContractB : Contract :=
  { id := 2, name := strToCodes "AlphaBeta", clauses := [exClauseB] }

/-- The evidence item produced by retrieving the question "goods" (with no
question embedding) over the one-clause corpus `[exClauseA]`. -/
noncomputable def exEvidenceA : EvidenceClause :=
  { clauseId := 1, sectionNumber := strToCodes "1", text := deliverText,
    relevanceScore := similarityOf (strToCodes "goods") none exClauseA,
    clauseType := .LIABILITY,
    documentName := documentNameOf [] exClauseA, pageNumber := 1 }

-- ===== THEOREMS =====

section NormalizeLemmas

theorem lowerC_of_good {c : ℕ} (h : goodCharB c = true) : lowerC c = c := by
  simp only [goodCharB, isDigitC, isLowerC, lowerC, isUpperC, Bool.or_eq_true,
    decide_eq_true_eq, beq_iff_eq] at *
  rcases h with h | h | h <;> rw [if_neg] <;> omega

theorem not_upper_lowerC (c : ℕ) : isUpperC (lowerC c) = false := by
  unfold lowerC
  split <;> rename_i h <;>
    · rw [isUpperC, decide_eq_false_iff_not]
      simp only [isUpperC, decide_eq_true_eq] at h
      omega

theorem isSpaceC_lowerC (c : ℕ) : isSpaceC (lowerC c) = isSpaceC c := by
  unfold lowerC
  split <;> rename_i h
  · simp only [isUpperC, decide_eq_true_eq] at h
    rw [isSpaceC, isSpaceC, decide_eq_false (by omega), decide_eq_false (by omega)]
  · rfl

theorem runsAux_nil (keep : ℕ → Bool) (acc : List ℕ) :
    runsAux keep [] acc = if acc.isEmpty then [] else [acc] := rfl

theorem runsAux_cons_keep (keep : ℕ → Bool) {c : ℕ} (hc : keep c = true)
    (l acc : List ℕ) : runsAux keep (c :: l) acc = runsAux keep l (acc ++ [c]) := by
  simp only [runsAux, hc, if_true]

theorem runsAux_cons_sep (keep : ℕ → Bool) {c : ℕ} (hc : keep c = false)
    (l acc : List ℕ) :
    runsAux keep (c :: l) acc =
      if acc.isEmpty then runsAux keep l [] else acc :: runsAux keep l [] := by
  simp only [runsAux, hc, Bool.false_eq_true, if_false]

theorem runsAux_append_sep (keep : ℕ → Bool) {c : ℕ} (hc : keep c = false)
    (a b : List ℕ) : ∀ acc,
    runsAux keep (a ++ c :: b) acc = runsAux keep a acc ++ runs keep b := by
  induction a with
  | nil =>
    intro acc
    rw [List.nil_append, runsAux_cons_sep _ hc, runsAux_nil]
    by_cases h : acc.isEmpty
    · rw [if_pos h, if_pos h, List.nil_append]; rfl
    · rw [if_neg h, if_neg h, List.singleton_append]; rfl
  | cons d a ih =>
    intro acc
    rw [List.cons_append]
    by_cases hd : keep d
    · rw [runsAux_cons_keep _ hd, runsAux_cons_keep _ hd, ih]
    · rw [Bool.not_eq_true] at hd
      rw [runsAux_cons_sep _ hd, runsAux_cons_sep _ hd]
      by_cases h : acc.isEmpty
      · rw [if_pos h, if_pos h, ih]
      · rw [if_neg h, if_neg h, ih, List.cons_append]

theorem runsAux_all_keep (keep : ℕ → Bool) (l acc : List ℕ)
    (h : ∀ x ∈ l, keep x = true) :
    runsAux keep l acc = if (acc ++ l).isEmpty then [] else [acc ++ l] := by
  induction l generalizing acc with
  | nil => simp [runsAux]
  | cons c l ih =>
    have hc : keep c = true := h c (by simp)
    rw [runsAux_cons_keep _ hc, ih _ (fun x hx => h x (by simp [hx]))]
    have he : acc ++ [c] ++ l = acc ++ c :: l := by simp
    rw [he]

theorem mem_runsAux (keep : ℕ → Bool) (l : List ℕ) :
    ∀ acc w, (∀ c ∈ acc, keep c = true) → w ∈ runsAux keep l acc →
      w ≠ [] ∧ ∀ c ∈ w, keep c = true ∧ (c ∈ acc ∨ c ∈ l) := by
  induction l with
  | nil =>
    intro acc w hacc hw
    rw [runsAux_nil] at hw
    by_cases h : acc.isEmpty
    · rw [if_pos h] at hw
      simp at hw
    · rw [if_neg h, List.mem_singleton] at hw
      subst hw
      exact ⟨by simpa [List.isEmpty_iff] using h,
        fun c hc => ⟨hacc c hc, Or.inl hc⟩⟩
  | cons c l ih =>
    intro acc w hacc hw
    by_cases hc : keep c
    · rw [runsAux_cons_keep _ hc] at hw
      have hacc' : ∀ d ∈ acc ++ [c], keep d = true := by
        intro d hd
        rcases List.mem_append.mp hd with h | h
        · exact hacc d h
        · simpa [List.mem_singleton.mp h]
      obtain ⟨hne, hall⟩ := ih _ w hacc' hw
      refine ⟨hne, fun d hd => ?_⟩
      obtain ⟨hk, hm⟩ := hall d hd
      refine ⟨hk, ?_⟩
      rcases hm with hm | hm
      · rcases List.mem_append.mp hm with h | h
        · exact Or.inl h
        · exact Or.inr (by simp [List.mem_singleton.mp h])
      · exact Or.inr (List.mem_cons_of_mem _ hm)
    · rw [Bool.not_eq_true] at hc
      rw [runsAux_cons_sep _ hc] at hw
      by_cases h : acc.isEmpty
      · rw [if_pos h] at hw
        obtain ⟨hne, hall⟩ := ih [] w (by simp) hw
        exact ⟨hne, fun d hd => ⟨(hall d hd).1, Or.inr (List.mem_cons_of_mem _
          ((hall d hd).2.resolve_left (by simp)))⟩⟩
      · rw [if_neg h, List.mem_cons] at hw
        rcases hw with hw | hw
        · subst hw
          exact ⟨by simpa [List.isEmpty_iff] using h,
            fun d hd => ⟨hacc d hd, Or.inl hd⟩⟩
        · obtain ⟨hne, hall⟩ := ih [] w (by simp) hw
          exact ⟨hne, fun d hd => ⟨(hall d hd).1, Or.inr (List.mem_cons_of_mem _
            ((hall d hd).2.resolve_left (by simp)))⟩⟩

/-- Every fragment of `words l` is nonempty, whitespace-free, and drawn from
the characters of `l`. -/
theorem mem_words {l w : List ℕ} (hw : w ∈ words l) :
    w ≠ [] ∧ ∀ c ∈ w, isSpaceC c = false ∧ c ∈ l := by
  obtain ⟨hne, hall⟩ := mem_runsAux _ l [] w (by simp) hw
  exact ⟨hne, fun c hc => ⟨by simpa using (hall c hc).1,
    (hall c hc).2.resolve_left (by simp)⟩⟩

/-- Characters of a `joinSep` are the separator or characters of fragments. -/
theorem mem_joinSep {sep : ℕ} : ∀ {ws : List (List ℕ)} {c : ℕ},
    c ∈ joinSep sep ws → c = sep ∨ ∃ w ∈ ws, c ∈ w := by
  intro ws
  induction ws with
  | nil => intro c hc; simp [joinSep] at hc
  | cons w ws ih =>
    intro c hc
    cases ws with
    | nil =>
      simp only [joinSep] at hc
      exact Or.inr ⟨w, by simp, hc⟩
    | cons w' ws' =>
      simp only [joinSep, List.mem_append, List.mem_cons] at hc
      rcases hc with hc | hc | hc
      · exact Or.inr ⟨w, by simp, hc⟩
      · exact Or.inl hc
      · rcases ih hc with h | ⟨u, hu, hcu⟩
        · exact Or.inl h
        · exact Or.inr ⟨u, List.mem_cons_of_mem _ hu, hcu⟩

/-- `words` applied to a `joinSep 32` of nonempty whitespace-free fragments
recovers the fragments. -/
theorem words_joinSep : ∀ {ws : List (List ℕ)},
    (∀ w ∈ ws, w ≠ [] ∧ ∀ c ∈ w, isSpaceC c = false) →
    words (joinSep 32 ws) = ws := by
  intro ws
  induction ws with
  | nil => intro _; rfl
  | cons w ws ih =>
    intro h
    obtain ⟨hwne, hwsp⟩ := h w (by simp)
    have hkeep : ∀ c ∈ w, (fun c => !isSpaceC c) c = true := by
      intro c hc; simp [hwsp c hc]
    cases ws with
    | nil =>
      simp only [joinSep, words, runs]
      rw [runsAux_all_keep _ _ _ hkeep]
      simp [List.isEmpty_iff, hwne]
    | cons w' ws' =>
      have hsep : (fun c => !isSpaceC c) 32 = false := by simp [isSpaceC]
      have hz := ih (fun u hu => h u (List.mem_cons_of_mem _ hu))
      simp only [joinSep, words, runs] at hz ⊢
      rw [runsAux_append_sep _ hsep, runsAux_all_keep _ _ _ hkeep]
      simp only [List.nil_append, List.isEmpty_iff, hwne, if_false, runs]
      rw [List.singleton_append, hz]

/-- A character of `collapseWS t` is the separator space or a non-whitespace
character of `t`. -/
theorem mem_collapseWS {c : ℕ} {l : List ℕ} (hc : c ∈ collapseWS l) :
    c = 32 ∨ (isSpaceC c = false ∧ c ∈ l) := by
  rcases mem_joinSep hc with h | ⟨w, hw, hcw⟩
  · exact Or.inl h
  · exact Or.inr ⟨((mem_words hw).2 c hcw).1, ((mem_words hw).2 c hcw).2⟩

/-- Every character of a normalized text is a digit, a lower-case letter, or
a space. -/
theorem mem_normalize_good {t : List ℕ} {c : ℕ} (hc : c ∈ normalize t) :
    goodCharB c = true := by
  rw [normalize] at hc
  obtain ⟨d1, hd1, rfl⟩ := List.mem_map.mp hc
  obtain ⟨d, hd, rfl⟩ := List.mem_map.mp hd1
  by_cases hk : (isAlnumC (lowerC d) || isSpaceC (lowerC d)) = true
  · rw [if_pos hk]
    by_cases hs : isSpaceC (lowerC d) = true
    · rw [isSpaceC_lowerC] at hs
      rcases mem_collapseWS hd with rfl | ⟨hns, _⟩
      · decide
      · exact absurd hs (by simp [hns])
    · have halnum : isAlnumC (lowerC d) = true := by
        rcases Bool.or_eq_true_iff.mp hk with h | h
        · exact h
        · exact absurd h hs
      rw [isAlnumC, not_upper_lowerC] at halnum
      simp only [Bool.or_eq_true, Bool.false_eq_true, or_false] at halnum
      rw [goodCharB]
      rcases halnum with h | h <;> simp [h]
  · rw [if_neg hk]
    decide

/-- On a text whose characters are all good, `normalize` degenerates to
whitespace collapsing. -/
theorem normalize_of_good {y : List ℕ} (h : ∀ c ∈ y, goodCharB c = true) :
    normalize y = collapseWS y := by
  rw [normalize, lowerText, List.map_map]
  have hid : ∀ c ∈ collapseWS y,
      (fun c => if isAlnumC c || isSpaceC c then c else 32) (lowerC c) = c := by
    intro c hc
    have hgood : goodCharB c = true := by
      rcases mem_collapseWS hc with rfl | ⟨_, hm⟩
      · decide
      · exact h c hm
    show (if isAlnumC (lowerC c) || isSpaceC (lowerC c) then lowerC c else 32) = c
    rw [lowerC_of_good hgood]
    rw [goodCharB] at hgood
    simp only [Bool.or_eq_true, beq_iff_eq] at hgood
    rcases hgood with (hg | hg) | hg
    · simp [isAlnumC, hg]
    · simp [isAlnumC, hg]
    · subst hg; decide
  calc (collapseWS y).map
        ((fun c => if isAlnumC c || isSpaceC c then c else 32) ∘ lowerC)
      = (collapseWS y).map id := List.map_congr_left (by simpa using hid)
    _ = collapseWS y := List.map_id _

theorem words_collapseWS (t : List ℕ) : words (collapseWS t) = words t := by
  rw [collapseWS, words_joinSep]
  intro w hw
  exact ⟨(mem_words hw).1, fun c hc => ((mem_words hw).2 c hc).1⟩

theorem collapseWS_collapseWS (t : List ℕ) :
    collapseWS (collapseWS t) = collapseWS t := by
  rw [collapseWS, words_collapseWS]
  rfl

end NormalizeLemmas

/-- **C1** — counterexample.  Normalizing `"a--b"` yields `[97, 32, 32, 98]`
(`"a"`, space, space, `"b"`): the output contains two consecutive spaces, and
a second application of `normalize` changes it, so the claimed single-spacing
and idempotence both fail on this input. -/
theorem claim1_counterexample :
    normalize (strToCodes "a--b") = [97, 32, 32, 98] ∧
    normalize (normalize (strToCodes "a--b")) ≠ normalize (strToCodes "a--b") := by
  decide

/-- **C1** — amended.  `_normalize_text` produces only lower-case
alphanumeric characters and spaces, but the output can contain consecutive
spaces (special characters are replaced by spaces *after* whitespace
collapsing), so `normalize` is only idempotent from the second application
on: `normalize ∘ normalize` is a projection. -/
theorem claim1_normalize_amended : ∀ t : List ℕ,
    ((normalize t).all goodCharB = true) ∧
    normalize (normalize (normalize t)) = normalize (normalize t) := by
  intro t
  have hgood : ∀ c ∈ normalize t, goodCharB c = true := fun c hc =>
    mem_normalize_good hc
  refine ⟨List.all_eq_true.mpr hgood, ?_⟩
  have h2 : normalize (normalize t) = collapseWS (normalize t) :=
    normalize_of_good hgood
  have hgood2 : ∀ c ∈ collapseWS (normalize t), goodCharB c = true := by
    intro c hc
    rcases mem_collapseWS hc with rfl | ⟨_, hm⟩
    · decide
    · exact hgood c hm
  rw [h2, normalize_of_good hgood2, collapseWS_collapseWS]

/-- **C9** — confirmed.  `_check_contradiction` is symmetric in its two text
arguments: the obligation/prohibition test is checked in both directions and
the negation-count test uses an absolute difference. -/
theorem claim9_contradiction_symm :
    ∀ t1 t2 : List ℕ, checkContradiction t1 t2 = checkContradiction t2 t1 := by
  intro t1 t2
  simp only [checkContradiction]
  have habs : ∀ a b : ℤ, (a - b).natAbs = (b - a).natAbs := fun a b => by
    rw [← Int.natAbs_neg, neg_sub]
  rw [habs]
  cases hasAnyTerm obligationTerms (lowerText t1) <;>
    cases hasAnyTerm prohibitionTerms (lowerText t1) <;>
    cases hasAnyTerm obligationTerms (lowerText t2) <;>
    cases hasAnyTerm prohibitionTerms (lowerText t2) <;> simp

section ConflictLemmas

theorem checkContradiction_values (t1 t2 : List ℕ) :
    checkContradiction t1 t2 = 0 ∨ checkContradiction t1 t2 = 0.3 ∨
    checkContradiction t1 t2 = 0.7 ∨ checkContradiction t1 t2 = 1 := by
  simp only [checkContradiction]
  split_ifs <;> norm_num

theorem cosineSimilarity_one_one : cosineSimilarity [(1 : ℝ)] [(1 : ℝ)] = 1 := by
  rw [cosineSimilarity]
  norm_num [Real.sqrt_one]

theorem cosineSimilarity_one_one_gt :
    cosineSimilarity [(1 : ℝ)] [(1 : ℝ)] > (SIMILARITY_THRESHOLD : ℝ) := by
  rw [cosineSimilarity_one_one, SIMILARITY_THRESHOLD]
  norm_num

/-- If the computed similarity exceeds the (positive) threshold, neither
vector can be empty, since an empty vector forces similarity `0`. -/
theorem length_ne_zero_of_sim {e1 e2 : List ℝ}
    (hsim : cosineSimilarity e1 e2 > (SIMILARITY_THRESHOLD : ℝ)) :
    ¬(e1.length = 0 ∨ e2.length = 0) := by
  intro h
  have hz : cosineSimilarity e1 e2 = 0 := by
    rw [cosineSimilarity, if_pos]
    rcases h with h | h
    · exact Or.inl h
    · exact Or.inr (Or.inl h)
  rw [hz, SIMILARITY_THRESHOLD] at hsim
  norm_num at hsim

/-- Evaluation of `checkClauseConflict` on the concrete example pair: both
embeddings are `[1.0]` (cosine similarity 1), the texts give contradiction
score 1, and LIABILITY is critical, so a CRITICAL conflict is produced. -/
theorem checkClauseConflict_exAB (ty : List ℕ) :
    checkClauseConflict exClauseA exClauseB ty =
      some { clauseId := 1, conflictingClauseId := 2, conflictType := ty,
             severity := .CRITICAL, confidence := 1 } := by
  rw [checkClauseConflict]
  simp only [exClauseA, exClauseB]
  rw [if_neg (by norm_num), if_pos cosineSimilarity_one_one_gt]
  have hscore : checkContradiction deliverText deliverNotText = 1 := by
    have h1 : (hasAnyTerm obligationTerms (lowerText deliverText) &&
        hasAnyTerm prohibitionTerms (lowerText deliverNotText) ||
        hasAnyTerm prohibitionTerms (lowerText deliverText) &&
        hasAnyTerm obligationTerms (lowerText deliverNotText)) = true := by decide
    have h2 : 2 ≤ ((negationCount (lowerText deliverText) : ℤ) -
        (negationCount (lowerText deliverNotText) : ℤ)).natAbs := by decide
    simp only [checkContradiction]
    rw [if_pos h1, if_pos h2]
    norm_num
  simp only [hscore]
  rw [if_pos (by rw [CONFLICT_THRESHOLD]; norm_num)]
  have hsev : assessConflictSeverity ClauseType.LIABILITY 1 = .CRITICAL := by
    rw [assessConflictSeverity, if_pos (by decide), if_pos (by norm_num)]
  rw [hsev]

/-- Membership in the version-conflict scan: a conflict is produced exactly
from a clause pair of matching type drawn from the contract and from another
stored contract with a different id whose name contains the contract's first
whitespace token as a substring. -/
theorem mem_detectVersionConflicts (contract : Contract)
    (allContracts : List Contract) (k : Conflict) :
    k ∈ detectVersionConflicts contract allContracts ↔
      ∃ o ∈ allContracts, o.id ≠ contract.id ∧
        containsSub (firstToken contract.name) o.name = true ∧
        ∃ c1 ∈ contract.clauses, ∃ c2 ∈ o.clauses,
          c1.clauseType = c2.clauseType ∧
          checkClauseConflict c1 c2 (strToCodes "VERSION_CONFLICT") = some k := by
  simp only [detectVersionConflicts, List.mem_flatMap, List.mem_filter,
    List.mem_filterMap, Bool.and_eq_true, bne_iff_ne]
  constructor
  · rintro ⟨o, ⟨ho, hid, hname⟩, c1, hc1, c2, hc2, hk⟩
    refine ⟨o, ho, hid, hname, c1, hc1, c2, hc2, ?_⟩
    by_cases hty : c1.clauseType = c2.clauseType
    · rw [if_pos hty] at hk
      exact ⟨hty, hk⟩
    · rw [if_neg hty] at hk
      exact absurd hk (by simp)
  · rintro ⟨o, ho, hid, hname, c1, hc1, c2, hc2, hty, hk⟩
    exact ⟨o, ⟨ho, hid, hname⟩, c1, hc1, c2, hc2, by rw [if_pos hty]; exact hk⟩

end ConflictLemmas

/-- **C10** — confirmed.  The contradiction score only takes the values 0,
0.3, 0.7 and 1, and since a conflict is only recorded when the score exceeds
the default conflict threshold 0.3, every recorded conflict has confidence
0.7 or 1. -/
theorem claim10_confidence_values :
    ∀ (t1 t2 : List ℕ) (c1 c2 : Clause) (ty : List ℕ) (k : Conflict),
      (checkContradiction t1 t2 = 0 ∨ checkContradiction t1 t2 = 0.3 ∨
       checkContradiction t1 t2 = 0.7 ∨ checkContradiction t1 t2 = 1) ∧
      (checkClauseConflict c1 c2 ty = some k →
        k.confidence = 0.7 ∨ k.confidence = 1) := by
  intro t1 t2 c1 c2 ty k
  refine ⟨checkContradiction_values t1 t2, fun h => ?_⟩
  rw [checkClauseConflict] at h
  rcases hc1 : c1.embedding with _ | e1 <;> rw [hc1] at h
  · exact absurd h (by simp)
  rcases hc2 : c2.embedding with _ | e2 <;> rw [hc2] at h
  · exact absurd h (by simp)
  simp only [] at h
  split_ifs at h with h1 h2 h3
  · have hk : k.confidence = checkContradiction c1.text c2.text := by
      have := Option.some.inj h
      rw [← this]
    rw [CONFLICT_THRESHOLD] at h3
    rcases checkContradiction_values c1.text c2.text with h4 | h4 | h4 | h4 <;>
      rw [h4] at hk h3
    · norm_num at h3
    · norm_num at h3
    · exact Or.inl hk
    · exact Or.inr hk

/-- **C10** — witness: a concrete clause pair producing a recorded conflict,
whose confidence is then 0.7 or 1. -/
theorem claim10_witness :
    checkClauseConflict exClauseA exClauseB (strToCodes "CONTRADICTION") =
      some { clauseId := 1, conflictingClauseId := 2,
             conflictType := strToCodes "CONTRADICTION",
             severity := .CRITICAL, confidence := 1 } ∧
    ((1 : ℚ) = 0.7 ∨ (1 : ℚ) = 1) := by
  have heval := checkClauseConflict_exAB (strToCodes "CONTRADICTION")
  refine ⟨heval, ?_⟩
  have := (claim10_confidence_values deliverText deliverNotText exClauseA exClauseB
    (strToCodes "CONTRADICTION")
    { clauseId := 1, conflictingClauseId := 2,
      conflictType := strToCodes "CONTRADICTION",
      severity := .CRITICAL, confidence := 1 }).2 heval
  exact this

section CosineLemmas

theorem sumSq_nonneg (v : List ℝ) : 0 ≤ (v.map (fun a => a * a)).sum := by
  apply List.sum_nonneg
  intro x hx
  obtain ⟨a, _, rfl⟩ := List.mem_map.mp hx
  exact mul_self_nonneg a

/-- Cauchy–Schwarz for the list dot product used by `_cosine_similarity`. -/
theorem list_dot_sq_le (v1 : List ℝ) : ∀ v2 : List ℝ,
    (((v1.zip v2).map (fun p => p.1 * p.2)).sum) ^ 2 ≤
      (v1.map (fun a => a * a)).sum * (v2.map (fun a => a * a)).sum := by
  induction v1 with
  | nil => intro v2; simp
  | cons a v1 ih =>
    intro v2
    cases v2 with
    | nil => simp
    | cons b v2 =>
      simp only [List.zip_cons_cons, List.map_cons, List.sum_cons]
      have h := ih v2
      have hs1 := sumSq_nonneg v1
      have hs2 := sumSq_nonneg v2
      set d := ((v1.zip v2).map (fun p => p.1 * p.2)).sum with hd
      set s1 := (v1.map (fun a => a * a)).sum with hps1
      set s2 := (v2.map (fun a => a * a)).sum with hps2
      rcases eq_or_lt_of_le hs1 with hz | hp
      · have hdz : d = 0 := by nlinarith [sq_nonneg d]
        rw [hdz]
        nlinarith [mul_nonneg (mul_self_nonneg a) hs2,
          mul_nonneg hs1 (mul_self_nonneg b), mul_nonneg hs1 hs2]
      · nlinarith [mul_nonneg (sq_nonneg a) (sub_nonneg.mpr h),
          sq_nonneg (a * d - b * s1), mul_nonneg hs1 (sub_nonneg.mpr h), hp]

/-- The cosine similarity of any two real vectors lies in `[-1, 1]`. -/
theorem cosineSimilarity_bounds (v1 v2 : List ℝ) :
    -1 ≤ cosineSimilarity v1 v2 ∧ cosineSimilarity v1 v2 ≤ 1 := by
  rw [cosineSimilarity]
  by_cases h1 : v1.length = 0 ∨ v2.length = 0 ∨ v1.length ≠ v2.length
  · rw [if_pos h1]
    norm_num
  rw [if_neg h1]
  by_cases h2 : (v1.map (fun a => a * a)).sum ≤ 0 ∨ (v2.map (fun a => a * a)).sum ≤ 0
  · rw [if_pos h2]
    norm_num
  · rw [if_neg h2]
    push_neg at h2
    set d := ((v1.zip v2).map (fun p => p.1 * p.2)).sum with hd
    set n1 := (v1.map (fun a => a * a)).sum with hn1
    set n2 := (v2.map (fun a => a * a)).sum with hn2
    have hcs : d ^ 2 ≤ n1 * n2 := list_dot_sq_le v1 v2
    have hpos : 0 < n1 * n2 := mul_pos h2.1 h2.2
    have hsq : 0 < Real.sqrt (n1 * n2) := Real.sqrt_pos.mpr hpos
    have hsqsq : Real.sqrt (n1 * n2) ^ 2 = n1 * n2 := Real.sq_sqrt hpos.le
    constructor
    · rw [le_div_iff₀ hsq]
      nlinarith [sq_nonneg (d + Real.sqrt (n1 * n2))]
    · rw [div_le_one hsq]
      nlinarith [sq_nonneg (d - Real.sqrt (n1 * n2))]

/-- The lexical fallback similarity lies in `[0, 1]`. -/
theorem lexicalSimilarity_bounds (a b : List ℕ) :
    0 ≤ lexicalSimilarity a b ∧ lexicalSimilarity a b ≤ 1 := by
  rw [lexicalSimilarity]
  split_ifs with h
  · norm_num
  · rw [Bool.or_eq_true, not_or] at h
    obtain ⟨ha, hb⟩ := h
    set ta := (tokenize a).dedup with hta
    set tb := (tokenize b).dedup with htb
    have hna : 0 < ta.length := by
      cases hempty : ta with
      | nil => exact absurd (by rw [hempty]; rfl) ha
      | cons x xs => simp
    have hnb : 0 < tb.length := by
      cases hempty : tb with
      | nil => exact absurd (by rw [hempty]; rfl) hb
      | cons x xs => simp
    have hprod : (0 : ℝ) < (ta.length : ℝ) * (tb.length : ℝ) := by
      have := Nat.mul_pos hna hnb
      exact_mod_cast this
    have hsq : 0 < Real.sqrt ((ta.length : ℝ) * (tb.length : ℝ)) :=
      Real.sqrt_pos.mpr hprod
    constructor
    · exact div_nonneg (Nat.cast_nonneg _) (Real.sqrt_nonneg _)
    · rw [div_le_one hsq]
      have hlea : (ta.filter (fun w => decide (w ∈ tb))).length ≤ ta.length :=
        List.length_filter_le _ _
      have hleb : (ta.filter (fun w => decide (w ∈ tb))).length ≤ tb.length := by
        apply List.Subperm.length_le
        apply List.subperm_of_subset
        · exact (List.nodup_dedup (tokenize a)).filter _
        · intro w hw
          have := List.of_mem_filter hw
          exact of_decide_eq_true this
      rw [Real.le_sqrt (Nat.cast_nonneg _) hprod.le]
      have : ((ta.filter (fun w => decide (w ∈ tb))).length : ℝ) ^ 2 ≤
          (ta.length : ℝ) * (tb.length : ℝ) := by
        have hnat := Nat.mul_le_mul hlea hleb
        rw [sq]
        exact_mod_cast hnat
      exact this

/-- Every per-clause similarity computed by retrieval lies in `[-1, 1]`. -/
theorem similarityOf_bounds (qt : List ℕ) (qe : Option (List ℝ)) (c : Clause) :
    -1 ≤ similarityOf qt qe c ∧ similarityOf qt qe c ≤ 1 := by
  rcases qe with _ | v <;> rcases hce : c.embedding with _ | w <;>
    simp only [similarityOf, hce]
  · have h := lexicalSimilarity_bounds qt c.text
    exact ⟨by linarith [h.1], h.2⟩
  · have h := lexicalSimilarity_bounds qt c.text
    exact ⟨by linarith [h.1], h.2⟩
  · have h := lexicalSimilarity_bounds qt c.text
    exact ⟨by linarith [h.1], h.2⟩
  · exact cosineSimilarity_bounds v w

/-- The second component of any entry of the ranked list is a clause of the
input paired with its computed similarity. -/
theorem mem_rankedClauses_score {qt : List ℕ} {qe : Option (List ℝ)}
    {clauses : List Clause} {p : ℕ × Clause × ℝ}
    (hp : p ∈ rankedClauses qt qe clauses) :
    ∃ c ∈ clauses, p.2 = (c, similarityOf qt qe c) := by
  have hperm := List.perm_insertionSort rankRel (scoredClauses qt qe clauses).enum
  have hp' : p ∈ (scoredClauses qt qe clauses).enum := hperm.mem_iff.mp hp
  have hsnd : p.2 ∈ scoredClauses qt qe clauses := by
    have hm := List.mem_map_of_mem Prod.snd hp'
    rw [List.enum_map_snd] at hm
    exact hm
  obtain ⟨c, hc, hcp⟩ := List.mem_map.mp hsnd
  exact ⟨c, hc, hcp.symm⟩

end CosineLemmas

/-- **C2** — counterexample.  The cosine similarity of the one-dimensional
vectors `[1.0]` and `[-1.0]` is `-1`, strictly below 0: the embedding-based
relevance score is *not* confined to `[0, 1]` for vectors with negative
components. -/
theorem claim2_counterexample :
    cosineSimilarity [(1 : ℝ)] [(-1 : ℝ)] = -1 ∧
    cosineSimilarity [(1 : ℝ)] [(-1 : ℝ)] < 0 := by
  have h : cosineSimilarity [(1 : ℝ)] [(-1 : ℝ)] = -1 := by
    rw [cosineSimilarity]
    norm_num [Real.sqrt_one]
  exact ⟨h, by rw [h]; norm_num⟩

/-- **C2** — amended.  Every relevance score attached to a returned
EvidenceClause lies in `[-1, 1]`: the lexical fallback lies in `[0, 1]`, but
the embedding cosine similarity can be any value in `[-1, 1]` (and no
lower/higher by Cauchy–Schwarz). -/
theorem claim2_relevance_bounds :
    ∀ (qt : List ℕ) (qe : Option (List ℝ)) (contracts : List Contract)
      (clauses : List Clause) (topK : ℕ),
      ∀ e ∈ retrieveEvidence qt qe contracts clauses topK,
        -1 ≤ e.relevanceScore ∧ e.relevanceScore ≤ 1 := by
  intro qt qe contracts clauses topK e he
  rw [retrieveEvidence] at he
  split_ifs at he with hemp
  · exact absurd he (by simp)
  · obtain ⟨p, hp, rfl⟩ := List.mem_map.mp he
    have hpr : p ∈ rankedClauses qt qe clauses :=
      List.take_subset _ _ hp
    obtain ⟨c, _, hc⟩ := mem_rankedClauses_score hpr
    have : p.2.2 = similarityOf qt qe c := by rw [hc]
    simp only [this]
    exact similarityOf_bounds qt qe c

/-- **C2** — witness: retrieval over one concrete clause with no question
embedding returns one evidence item whose relevance score is within bounds. -/
theorem claim2_witness :
    exEvidenceA ∈ retrieveEvidence (strToCodes "goods") none [] [exClauseA] 1 ∧
    (-1 ≤ exEvidenceA.relevanceScore ∧ exEvidenceA.relevanceScore ≤ 1) := by
  have hmem : exEvidenceA ∈
      retrieveEvidence (strToCodes "goods") none [] [exClauseA] 1 := by
    rw [retrieveEvidence, if_neg (by simp), rankedClauses, scoredClauses]
    simp only [List.map_cons, List.map_nil, List.enum, List.enumFrom]
    rw [show ∀ x : ℕ × Clause × ℝ, List.insertionSort rankRel [x] = [x] from
      fun x => rfl]
    simp [exClauseA, exEvidenceA]
  exact ⟨hmem,
    claim2_relevance_bounds (strToCodes "goods") none [] [exClauseA] 1 _ hmem⟩

section RetrievalLemmas

theorem rankedClauses_length (qt : List ℕ) (qe : Option (List ℝ))
    (clauses : List Clause) :
    (rankedClauses qt qe clauses).length = clauses.length := by
  rw [rankedClauses,
    (List.perm_insertionSort rankRel (scoredClauses qt qe clauses).enum).length_eq,
    List.enum_length, scoredClauses, List.length_map]

theorem rankedClauses_sorted (qt : List ℕ) (qe : Option (List ℝ))
    (clauses : List Clause) :
    (rankedClauses qt qe clauses).Pairwise rankRel :=
  List.sorted_insertionSort rankRel (scoredClauses qt qe clauses).enum

/-- The original positions tagged onto the ranked list are pairwise
distinct. -/
theorem rankedClauses_fst_ne (qt : List ℕ) (qe : Option (List ℝ))
    (clauses : List Clause) :
    (rankedClauses qt qe clauses).Pairwise (fun a b => a.1 ≠ b.1) := by
  have hperm := List.perm_insertionSort rankRel (scoredClauses qt qe clauses).enum
  have hmap : List.Perm ((rankedClauses qt qe clauses).map Prod.fst)
      (((scoredClauses qt qe clauses).enum).map Prod.fst) := hperm.map Prod.fst
  have hnodup : ((rankedClauses qt qe clauses).map Prod.fst).Nodup := by
    rw [hmap.nodup_iff, List.enum_map_fst]
    exact List.nodup_range _
  rwa [List.Nodup, List.pairwise_map] at hnodup

/-- Sortedness with distinct tags upgrades the tie-break to a strict one:
within the ranked list, scores never increase and equal scores appear in
original order. -/
theorem rankedClauses_stable (qt : List ℕ) (qe : Option (List ℝ))
    (clauses : List Clause) :
    (rankedClauses qt qe clauses).Pairwise
      (fun a b => b.2.2 < a.2.2 ∨ (a.2.2 = b.2.2 ∧ a.1 < b.1)) := by
  have h := (rankedClauses_sorted qt qe clauses).and
    (rankedClauses_fst_ne qt qe clauses)
  refine h.imp ?_
  rintro a b ⟨hr | ⟨he, hle⟩, hne⟩
  · exact Or.inl hr
  · exact Or.inr ⟨he, lt_of_le_of_ne hle hne⟩

end RetrievalLemmas

/-- **C6** — confirmed.  Retrieval returns exactly `min top_k n` items for an
`n`-clause corpus, with relevance scores non-increasing along the returned
list; the underlying ranked list (whose prefix is returned) is ordered by
score descending with ties broken strictly by the candidates' original
positions (Python's `list.sort` is stable). -/
theorem claim6_retrieval_order :
    ∀ (qt : List ℕ) (qe : Option (List ℝ)) (contracts : List Contract)
      (clauses : List Clause) (topK : ℕ),
      (retrieveEvidence qt qe contracts clauses topK).length =
        min topK clauses.length ∧
      (retrieveEvidence qt qe contracts clauses topK).Pairwise
        (fun a b => b.relevanceScore ≤ a.relevanceScore) ∧
      ((rankedClauses qt qe clauses).take topK).Pairwise
        (fun a b => b.2.2 < a.2.2 ∨ (a.2.2 = b.2.2 ∧ a.1 < b.1)) := by
  intro qt qe contracts clauses topK
  refine ⟨?_, ?_, ?_⟩
  · rw [retrieveEvidence]
    by_cases hemp : clauses.isEmpty
    · rw [if_pos hemp, List.isEmpty_iff.mp hemp]
      simp
    · rw [if_neg hemp, List.length_map, List.length_take,
        rankedClauses_length]
  · rw [retrieveEvidence]
    by_cases hemp : clauses.isEmpty
    · rw [if_pos hemp]
      exact List.Pairwise.nil
    · rw [if_neg hemp]
      rw [List.pairwise_map]
      refine List.Pairwise.imp ?_
        ((rankedClauses_sorted qt qe clauses).sublist (List.take_sublist topK _))
      rintro a b (hr | ⟨he, _⟩)
      · exact hr.le
      · exact he.ge
  · exact (rankedClauses_stable qt qe clauses).sublist
      (List.take_sublist topK _)

/-- **C8** — confirmed.  Whenever retrieval produces no evidence (in
particular for an empty clause corpus), `answer_question` returns the fixed
sentinel response: the no-relevant-clauses answer text, confidence 0, empty
evidence, ambiguity and conflict lists, and `requires_review = false`. -/
theorem claim8_empty_short_circuit :
    ∀ (qt : List ℕ) (qe : Option (List ℝ)) (contracts : List Contract)
      (clauses : List Clause) (stored : List Conflict) (topK : ℕ),
      retrieveEvidence qt qe contracts clauses topK = [] →
      answerQuestion qt qe contracts clauses stored topK =
        { answer := noRelevantClausesAnswer, confidence := 0,
          evidenceClauses := [], ambiguities := [], conflicts := [],
          requiresReview := false } := by
  intro qt qe contracts clauses stored topK h
  rw [answerQuestion]
  simp only [h]
  rfl

/-- **C8** — witness: the empty clause corpus yields the sentinel response. -/
theorem claim8_witness :
    answerQuestion (strToCodes "goods") none [] [] [] 5 =
      { answer := noRelevantClausesAnswer, confidence := 0,
        evidenceClauses := [], ambiguities := [], conflicts := [],
        requiresReview := false } :=
  claim8_empty_short_circuit (strToCodes "goods") none [] [] [] 5
    (by rw [retrieveEvidence]; simp)

/-- **C4** — counterexample.  The contract named "Alpha Contract" is paired
against the contract named "AlphaBeta", which does *not* share its first
whitespace token "Alpha" (the only token of "AlphaBeta" is "AlphaBeta"): the
stored query uses substring containment (`Contract.name.contains(...)`), not
token sharing, so a VERSION_CONFLICT is produced against a contract the
claim says would never be compared. -/
theorem claim4_counterexample :
    specSharesFirstToken exContractA.name exContractB.name = false ∧
    { clauseId := 1, conflictingClauseId := 2,
      conflictType := strToCodes "VERSION_CONFLICT",
      severity := RiskLevel.CRITICAL, confidence := (1 : ℚ) } ∈
      detectVersionConflicts exContractA [exContractB] := by
  refine ⟨by decide, ?_⟩
  rw [mem_detectVersionConflicts]
  exact ⟨exContractB, by simp, by decide, by decide,
    exClauseA, by simp [exContractA], exClauseB, by simp [exContractB], rfl,
    checkClauseConflict_exAB _⟩

/-- **C4** — amended.  The VERSION_CONFLICT scan compares the clauses of a
contract exactly against the clauses of other contracts (different id) whose
name *contains the contract's first whitespace token as a substring* (a
strictly weaker condition than sharing the token), restricted to pairs with
matching clause type. -/
theorem claim4_version_conflict_scope :
    ∀ (contract : Contract) (allContracts : List Contract) (k : Conflict),
      k ∈ detectVersionConflicts contract allContracts ↔
        ∃ o ∈ allContracts, o.id ≠ contract.id ∧
          containsSub (firstToken contract.name) o.name = true ∧
          ∃ c1 ∈ contract.clauses, ∃ c2 ∈ o.clauses,
            c1.clauseType = c2.clauseType ∧
            checkClauseConflict c1 c2 (strToCodes "VERSION_CONFLICT") = some k :=
  mem_detectVersionConflicts

/-- **C3** — confirmed.  For the two specified delivery texts, whenever the
clauses carry embeddings whose cosine similarity exceeds the similarity
threshold, the contradiction score is at least 0.7 (it is exactly 1 here:
the obligation/prohibition bonus fires, and "not"/"no" give a
negation-count difference of 2), so a conflict is recorded, with severity
CRITICAL when the first clause's type is in the critical tier and HIGH
otherwise. -/
theorem claim3_contradiction_pair (c1 c2 : Clause) (ty : List ℕ)
    (e1 e2 : List ℝ)
    (ht1 : c1.text = deliverText) (ht2 : c2.text = deliverNotText)
    (he1 : c1.embedding = some e1) (he2 : c2.embedding = some e2)
    (hsim : cosineSimilarity e1 e2 > (SIMILARITY_THRESHOLD : ℝ)) :
    (0.7 : ℚ) ≤ checkContradiction c1.text c2.text ∧
    checkClauseConflict c1 c2 ty =
      some { clauseId := c1.id, conflictingClauseId := c2.id,
             conflictType := ty,
             severity := if c1.clauseType ∈ criticalConflictTypes
               then RiskLevel.CRITICAL else RiskLevel.HIGH,
             confidence := 1 } := by
  have hscore : checkContradiction c1.text c2.text = 1 := by
    rw [ht1, ht2]
    have h1 : (hasAnyTerm obligationTerms (lowerText deliverText) &&
        hasAnyTerm prohibitionTerms (lowerText deliverNotText) ||
        hasAnyTerm prohibitionTerms (lowerText deliverText) &&
        hasAnyTerm obligationTerms (lowerText deliverNotText)) = true := by decide
    have h2 : 2 ≤ ((negationCount (lowerText deliverText) : ℤ) -
        (negationCount (lowerText deliverNotText) : ℤ)).natAbs := by decide
    simp only [checkContradiction]
    rw [if_pos h1, if_pos h2]
    norm_num
  refine ⟨by rw [hscore]; norm_num, ?_⟩
  rw [checkClauseConflict, he1, he2]
  simp only []
  rw [if_neg (length_ne_zero_of_sim hsim), if_pos hsim, hscore,
    if_pos (by rw [CONFLICT_THRESHOLD]; norm_num)]
  have hsev : assessConflictSeverity c1.clauseType 1 =
      if c1.clauseType ∈ criticalConflictTypes
        then RiskLevel.CRITICAL else RiskLevel.HIGH := by
    rw [assessConflictSeverity]
    by_cases hct : c1.clauseType ∈ criticalConflictTypes
    · rw [if_pos hct, if_pos hct, if_pos (by norm_num)]
    · rw [if_neg hct, if_neg hct, if_pos (by norm_num)]
  rw [hsev]

/-- **C3** — witness: the theorem applied to a concrete clause pair with
one-dimensional embeddings `[1.0]` and `[1.0]` (cosine similarity 1 > 0.85).
The first clause's type LIABILITY is in the critical tier, so the recorded
severity is CRITICAL. -/
theorem claim3_witness :
    (0.7 : ℚ) ≤ checkContradiction exClauseA.text exClauseB.text ∧
    checkClauseConflict exClauseA exClauseB (strToCodes "VERSION_CONFLICT") =
      some { clauseId := exClauseA.id, conflictingClauseId := exClauseB.id,
             conflictType := strToCodes "VERSION_CONFLICT",
             severity := if exClauseA.clauseType ∈ criticalConflictTypes
               then RiskLevel.CRITICAL else RiskLevel.HIGH,
             confidence := 1 } :=
  claim3_contradiction_pair exClauseA exClauseB (strToCodes "VERSION_CONFLICT")
    [1] [1] rfl rfl rfl rfl cosineSimilarity_one_one_gt

section AmbiguityLemmas

theorem isPrefixB_append {n : List ℕ} : ∀ {l : List ℕ} (e : List ℕ),
    isPrefixB n l = true → isPrefixB n (l ++ e) = true := by
  induction n with
  | nil => intro l e _; rfl
  | cons a as ih =>
    intro l e h
    cases l with
    | nil => exact absurd h (by simp [isPrefixB])
    | cons b bs =>
      rw [isPrefixB, Bool.and_eq_true] at h
      rw [List.cons_append, isPrefixB, Bool.and_eq_true]
      exact ⟨h.1, ih e h.2⟩

theorem containsSub_nil_left : ∀ h : List ℕ, containsSub [] h = true := by
  intro h
  cases h <;> simp [containsSub, isPrefixB]

theorem containsSub_append {n : List ℕ} : ∀ {h : List ℕ} (e : List ℕ),
    containsSub n h = true → containsSub n (h ++ e) = true := by
  intro h
  induction h with
  | nil =>
    intro e hc
    rw [containsSub] at hc
    cases n with
    | nil => exact containsSub_nil_left e
    | cons a as => exact absurd hc (by simp [isPrefixB])
  | cons c t ih =>
    intro e hc
    rw [containsSub, Bool.or_eq_true] at hc
    rw [List.cons_append, containsSub, Bool.or_eq_true]
    rcases hc with hc | hc
    · exact Or.inl (by rw [← List.cons_append]; exact isPrefixB_append e hc)
    · exact Or.inr (ih e hc)

theorem length_filter_mono {α : Type} {p q : α → Bool} (l : List α)
    (h : ∀ a ∈ l, p a = true → q a = true) :
    (l.filter p).length ≤ (l.filter q).length := by
  induction l with
  | nil => exact le_rfl
  | cons a l ih =>
    have ih' := ih (fun x hx => h x (List.mem_cons_of_mem _ hx))
    by_cases hp : p a = true
    · have hq := h a (by simp) hp
      simp only [List.filter_cons, hp, hq, if_true, List.length_cons]
      omega
    · rw [Bool.not_eq_true] at hp
      simp only [List.filter_cons, hp]
      by_cases hq : q a = true
      · simp only [hq, if_true, if_false, Bool.false_eq_true, List.length_cons]
        omega
      · rw [Bool.not_eq_true] at hq
        simp only [hq, Bool.false_eq_true, if_false]
        exact ih'

theorem termHits_mono (T : List (List ℕ)) (t e : List ℕ) :
    termHits T t ≤ termHits T (t ++ e) :=
  length_filter_mono T (fun _ _ hw => containsSub_append e hw)

theorem clean_lowerC {c : ℕ} (h : cleanCharB c = true) : lowerC c = c := by
  rw [cleanCharB, Bool.or_eq_true] at h
  rw [lowerC, if_neg]
  rw [isUpperC]
  rcases h with h | h
  · rw [isLowerC, decide_eq_true_eq] at h
    simp only [decide_eq_true_eq]
    omega
  · rw [beq_iff_eq] at h
    subst h
    decide

theorem clean_not_digit {c : ℕ} (h : cleanCharB c = true) : isDigitC c = false := by
  rw [cleanCharB, Bool.or_eq_true] at h
  rw [isDigitC, decide_eq_false_iff_not]
  rcases h with h | h
  · rw [isLowerC, decide_eq_true_eq] at h
    omega
  · rw [beq_iff_eq] at h
    subst h
    decide

theorem clean_not_sep {c : ℕ} (h : cleanCharB c = true) : c ≠ 46 ∧ c ≠ 59 := by
  rw [cleanCharB, Bool.or_eq_true] at h
  rcases h with h | h
  · rw [isLowerC, decide_eq_true_eq] at h
    omega
  · rw [beq_iff_eq] at h
    subst h
    decide

theorem lowerText_clean {tm : List ℕ} (h : ∀ c ∈ tm, cleanCharB c = true) :
    lowerText tm = tm := by
  rw [lowerText]
  calc tm.map lowerC = tm.map id := List.map_congr_left (fun c hc => clean_lowerC (h c hc))
    _ = tm := List.map_id tm

theorem digitsPrefix_any {l : List ℕ} {k : ℕ} (h : digitsPrefix l k = true)
    (hk : 1 ≤ k) : l.any isDigitC = true := by
  rw [digitsPrefix, Bool.and_eq_true, decide_eq_true_eq] at h
  cases l with
  | nil => simp at h; omega
  | cons c t =>
    obtain ⟨hlen, hall⟩ := h
    obtain ⟨k', rfl⟩ : ∃ k', k = k' + 1 := ⟨k - 1, by omega⟩
    rw [List.take_succ_cons, List.all_cons, Bool.and_eq_true] at hall
    rw [List.any_cons, hall.1]
    rfl

theorem date1At_digit {l : List ℕ} (h : date1At l = true) :
    l.any isDigitC = true := by
  by_cases h1 : digitsPrefix l 1 = true
  · exact digitsPrefix_any h1 le_rfl
  · by_cases h2 : digitsPrefix l 2 = true
    · exact digitsPrefix_any h2 (by omega)
    · rw [Bool.not_eq_true] at h1 h2
      rw [date1At] at h
      simp only [List.any_cons, List.any_nil, h1, h2, Bool.false_and,
        Bool.or_false, Bool.false_eq_true] at h

theorem date2At_digit {l : List ℕ} (h : date2At l = true) :
    l.any isDigitC = true := by
  rw [date2At, Bool.and_eq_true, Bool.and_eq_true, Bool.and_eq_true,
    Bool.and_eq_true] at h
  exact digitsPrefix_any h.1.1.1.1 (by omega)

theorem hasDate_digit : ∀ {l : List ℕ}, hasDate l = true → l.any isDigitC = true := by
  intro l
  induction l with
  | nil => intro h; exact absurd h (by decide)
  | cons c rest ih =>
    intro h
    rw [hasDate, Bool.or_eq_true, Bool.or_eq_true] at h
    rcases h with (h | h) | h
    · exact date1At_digit h
    · exact date2At_digit h
    · rw [List.any_cons, ih h, Bool.or_true]

theorem splitSeps_ne_nil (l : List ℕ) : splitSeps l ≠ [] := by
  cases l with
  | nil => simp [splitSeps]
  | cons c t =>
    rw [splitSeps]
    split
    · simp
    · split <;> simp

theorem modLast_cons {f : List ℕ → List ℕ} {x : List ℕ} {xs : List (List ℕ)}
    (h : xs ≠ []) : modLast f (x :: xs) = x :: modLast f xs := by
  cases xs with
  | nil => exact absurd rfl h
  | cons y ys => rfl

theorem modLast_length (f : List ℕ → List ℕ) : ∀ l : List (List ℕ),
    (modLast f l).length = l.length := by
  intro l
  induction l with
  | nil => rfl
  | cons x xs ih =>
    cases xs with
    | nil => rfl
    | cons y ys =>
      rw [modLast_cons (by simp), List.length_cons, List.length_cons, ih]

theorem splitSeps_sepFree : ∀ {b : List ℕ},
    (∀ c ∈ b, (c == 46 || c == 59) = false) → splitSeps b = [b] := by
  intro b
  induction b with
  | nil => intro _; rfl
  | cons c t ih =>
    intro h
    rw [splitSeps]
    rw [if_neg (by rw [h c (by simp)]; simp)]
    rw [ih (fun x hx => h x (List.mem_cons_of_mem _ hx))]

theorem splitSeps_append {b : List ℕ}
    (hb : ∀ c ∈ b, (c == 46 || c == 59) = false) :
    ∀ a : List ℕ, splitSeps (a ++ b) = modLast (· ++ b) (splitSeps a) := by
  intro a
  induction a with
  | nil =>
    rw [List.nil_append, splitSeps_sepFree hb]
    rfl
  | cons c a' ih =>
    rw [List.cons_append, splitSeps, splitSeps]
    by_cases hc : (c == 46 || c == 59) = true
    · rw [if_pos hc, if_pos hc, ih,
        modLast_cons (splitSeps_ne_nil a')]
    · rw [Bool.not_eq_true] at hc
      rw [if_neg (by rw [hc]; simp), if_neg (by rw [hc]; simp), ih]
      obtain ⟨f', fs', hsplit⟩ : ∃ f' fs', splitSeps a' = f' :: fs' := by
        cases h : splitSeps a' with
        | nil => exact absurd h (splitSeps_ne_nil a')
        | cons x xs => exact ⟨x, xs, rfl⟩
      rw [hsplit]
      cases fs' with
      | nil => rfl
      | cons g gs =>
        have h1 : modLast (fun s => s ++ b) (f' :: g :: gs) =
            f' :: modLast (fun s => s ++ b) (g :: gs) := modLast_cons (by simp)
        have h2 : modLast (fun s => s ++ b) ((c :: f') :: g :: gs) =
            (c :: f') :: modLast (fun s => s ++ b) (g :: gs) := modLast_cons (by simp)
        rw [h1]
        show (c :: f') :: modLast (fun s => s ++ b) (g :: gs) =
          modLast (fun s => s ++ b) ((c :: f') :: g :: gs)
        rw [h2]

theorem words_append_space (f tm : List ℕ) :
    words (f ++ 32 :: tm) = words f ++ words tm := by
  rw [words, runs, runsAux_append_sep _ (by decide) f tm]
  rfl

theorem sum_wordCount_modLast (tm : List ℕ) : ∀ sents : List (List ℕ),
    sents ≠ [] →
    ((modLast (· ++ 32 :: tm) sents).map (fun s => ((words s).length : ℚ))).sum =
      (sents.map (fun s => ((words s).length : ℚ))).sum + ((words tm).length : ℚ) := by
  intro sents
  induction sents with
  | nil => intro h; exact absurd rfl h
  | cons x xs ih =>
    intro _
    cases xs with
    | nil =>
      simp only [modLast, List.map_cons, List.map_nil, List.sum_cons,
        List.sum_nil, words_append_space, List.length_append]
      push_cast
      ring
    | cons y ys =>
      rw [modLast_cons (by simp), List.map_cons, List.sum_cons, ih (by simp)]
      simp only [List.map_cons, List.sum_cons]
      ring

/-- Appending a space-separated separator-free term does not decrease the
average sentence word count. -/
theorem avgSentenceLength_mono {tm : List ℕ}
    (hb : ∀ c ∈ (32 :: tm), (c == 46 || c == 59) = false) (text : List ℕ) :
    avgSentenceLength text ≤ avgSentenceLength (text ++ 32 :: tm) := by
  rw [avgSentenceLength, avgSentenceLength, splitSeps_append hb text]
  rw [show ∀ l, modLast (· ++ 32 :: tm) l = modLast (fun s => s ++ 32 :: tm) l from
    fun l => rfl]
  rw [sum_wordCount_modLast tm (splitSeps text) (splitSeps_ne_nil text),
    modLast_length]
  have hden : (0 : ℚ) < ((max (splitSeps text).length 1 : ℕ) : ℚ) := by
    have : 1 ≤ max (splitSeps text).length 1 := le_max_right _ _
    exact_mod_cast Nat.lt_of_lt_of_le Nat.zero_lt_one this
  rw [div_le_div_iff_of_pos_right hden]
  have : (0 : ℚ) ≤ ((words tm).length : ℚ) := by positivity
  linarith

/-- Appending a space plus a clean (lower-case/space) term preserves the
missing-specifics bonus: it adds no digits (hence no dates either), and only
grows the length. -/
theorem missingSpecificsBonus_mono {tm : List ℕ}
    (hclean : ∀ c ∈ tm, cleanCharB c = true) (t : List ℕ) (ctype : ClauseType) :
    missingSpecificsBonus t ctype ≤ missingSpecificsBonus (t ++ 32 :: tm) ctype := by
  rw [missingSpecificsBonus, missingSpecificsBonus]
  by_cases h : ¬(t.any isDigitC = true) ∧ ¬(hasDate t = true) ∧ 100 < t.length ∧
      ctype ∈ missingSpecificsTypes
  · have hnodig : (t ++ 32 :: tm).any isDigitC = false := by
      rw [List.any_append, List.any_cons]
      have h32 : isDigitC 32 = false := by decide
      have htm : tm.any isDigitC = false :=
        List.any_eq_false.mpr (fun c hc => by rw [clean_not_digit (hclean c hc)]; simp)
      have h0 : t.any isDigitC = false := by
        cases hb : t.any isDigitC
        · rfl
        · exact absurd hb h.1
      rw [h0, h32, htm]
      rfl
    have hnodate : hasDate (t ++ 32 :: tm) = false := by
      cases hd : hasDate (t ++ 32 :: tm)
      · rfl
      · exact absurd (hasDate_digit hd) (by rw [hnodig]; simp)
    rw [if_pos h, if_pos]
    exact ⟨by rw [hnodig]; simp, by rw [hnodate]; simp,
      by rw [List.length_append]; omega, h.2.2.2⟩
  · rw [if_neg h]
    split_ifs <;> norm_num

/-- Appending a space plus a term cannot decrease the padded negation-word
count. -/
theorem ambNegationCount_mono (t tm : List ℕ) :
    ambNegationCount t ≤ ambNegationCount (t ++ 32 :: tm) := by
  rw [ambNegationCount, ambNegationCount]
  have hpad : 32 :: ((t ++ 32 :: tm) ++ [32]) =
      (32 :: (t ++ [32])) ++ (tm ++ [32]) := by
    simp
  rw [hpad]
  exact length_filter_mono _ (fun w _ hw => containsSub_append _ hw)

end AmbiguityLemmas

/-- **C5** — confirmed.  The ambiguity score always lies in [0, 1], and it is
monotone under extension: appending a space followed by any term made of
lower-case letters and spaces (in particular any of the trigger terms, all of
which are of that shape, as the third conjunct certifies) never decreases the
score. -/
theorem claim5_ambiguity_score :
    (∀ (text : List ℕ) (ctype : ClauseType),
      0 ≤ ambiguityScore text ctype ∧ ambiguityScore text ctype ≤ 1) ∧
    (∀ (text tm : List ℕ) (ctype : ClauseType), tm.all cleanCharB = true →
      ambiguityScore text ctype ≤ ambiguityScore (text ++ 32 :: tm) ctype) ∧
    ((AMBIGUOUS_TERMS ++ VAGUE_QUANTIFIERS ++ COMPLEX_CONDITIONALS).all
      (fun w => w.all cleanCharB) = true) := by
  refine ⟨?_, ?_, by decide⟩
  · intro text ctype
    constructor
    · rw [ambiguityScore]
      refine le_min ?_ (by norm_num)
      have hM : 0 ≤ missingSpecificsBonus (lowerText text) ctype := by
        rw [missingSpecificsBonus]
        split_ifs <;> norm_num
      have hA : (0 : ℚ) ≤ (termHits AMBIGUOUS_TERMS (lowerText text) : ℚ) :=
        Nat.cast_nonneg _
      have hV : (0 : ℚ) ≤ (termHits VAGUE_QUANTIFIERS (lowerText text) : ℚ) :=
        Nat.cast_nonneg _
      have hC : (0 : ℚ) ≤ (termHits COMPLEX_CONDITIONALS (lowerText text) : ℚ) :=
        Nat.cast_nonneg _
      split_ifs <;> linarith
    · exact min_le_right _ _
  · intro text tm ctype hclean
    have hcleanm : ∀ c ∈ tm, cleanCharB c = true := List.all_eq_true.mp hclean
    have hlow : lowerText (text ++ 32 :: tm) = lowerText text ++ 32 :: tm := by
      rw [lowerText, List.map_append, List.map_cons]
      rw [show lowerC 32 = 32 from by decide]
      rw [show tm.map lowerC = lowerText tm from rfl, lowerText_clean hcleanm]
      rfl
    rw [ambiguityScore, ambiguityScore, hlow]
    refine min_le_min ?_ le_rfl
    have hterm : ∀ T : List (List ℕ), (q : ℚ) → 0 ≤ q →
        (termHits T (lowerText text) : ℚ) * q ≤
          (termHits T (lowerText text ++ 32 :: tm) : ℚ) * q := by
      intro T q hq
      apply mul_le_mul_of_nonneg_right _ hq
      exact_mod_cast termHits_mono T (lowerText text) (32 :: tm)
    have hneg : (if 2 ≤ ambNegationCount (lowerText text) then (0.2 : ℚ) else 0) ≤
        (if 2 ≤ ambNegationCount (lowerText text ++ 32 :: tm) then (0.2 : ℚ)
          else 0) := by
      have hm := ambNegationCount_mono (lowerText text) tm
      split_ifs with h1 h2
      · exact le_rfl
      · exact absurd (le_trans h1 hm) h2
      · norm_num
      · exact le_rfl
    have hsepfree : ∀ c ∈ (32 :: tm), (c == 46 || c == 59) = false := by
      intro c hc
      rcases List.mem_cons.mp hc with rfl | hc
      · decide
      · obtain ⟨h46, h59⟩ := clean_not_sep (hcleanm c hc)
        simp [h46, h59]
    have havg : (if 40 < avgSentenceLength text then (0.15 : ℚ) else 0) ≤
        (if 40 < avgSentenceLength (text ++ 32 :: tm) then (0.15 : ℚ)
          else 0) := by
      have hm := avgSentenceLength_mono hsepfree text
      split_ifs with h1 h2
      · exact le_rfl
      · exact absurd (lt_of_lt_of_le h1 hm) h2
      · norm_num
      · exact le_rfl
    exact add_le_add (add_le_add (add_le_add (add_le_add
      (add_le_add (hterm _ _ (by norm_num)) (hterm _ _ (by norm_num)))
      (hterm _ _ (by norm_num)))
      (missingSpecificsBonus_mono hcleanm (lowerText text) ctype)) hneg) havg

/-- **C5** — witness: appending the trigger term "promptly" to a concrete
clause text does not decrease its ambiguity score, and the original score is
within bounds. -/
theorem claim5_witness :
    (0 ≤ ambiguityScore (strToCodes "the party may act") ClauseType.GENERAL ∧
      ambiguityScore (strToCodes "the party may act") ClauseType.GENERAL ≤ 1) ∧
    ambiguityScore (strToCodes "the party may act") ClauseType.GENERAL ≤
      ambiguityScore (strToCodes "the party may act" ++ 32 ::
        strToCodes "promptly") ClauseType.GENERAL :=
  ⟨claim5_ambiguity_score.1 (strToCodes "the party may act") ClauseType.GENERAL,
   claim5_ambiguity_score.2.1 (strToCodes "the party may act")
     (strToCodes "promptly") ClauseType.GENERAL (by decide)⟩

/-- **C7** — confirmed.  Segmenting the given section text yields exactly the
two expected clauses, the first typed OBLIGATION, the second typed EXCLUSION
(the exclusion keyword "shall not" is checked before the liability keyword
"liable"). -/
theorem claim7_segmentation :
    splitIntoClauses (strToCodes
        "(a) Party shall pay within 30 days. (b) Party shall not be liable for delays.") =
      [(strToCodes "(a) Party shall pay within 30 days.", ClauseType.OBLIGATION),
       (strToCodes "(b) Party shall not be liable for delays.",
         ClauseType.EXCLUSION)] := by
  decide

end Contracts
